import Mathlib

/-!
Verification development for the bernax-alignment read-classification pipeline.

The Python sources are shallowly embedded:
* strings are modelled as `List Char` (`PyStr`), one `Char` per Unicode code
  point, matching Python's string semantics;
* a text file is modelled as the list of its `readline` results (one `PyStr`
  per line; the empty list plays the role of end-of-file, and `[]` as a line
  models the empty string that `readline` returns at end-of-file);
* the decimal numbers appearing in BLAST tabular output are modelled exactly
  as `PyNum` values `num / 10 ^ dexp`; comparisons are by cross
  multiplication over `Int`, and are related to `ℚ` in the proofs;
* code that can raise an exception is modelled with `Option`, `none` standing
  for an uncaught exception aborting the run.

Embedded sources:
* `src/rna_pipeline/blast_parser.py`  (`getSampleFromReadID`, `filterAndSummarize`)
* `src/rna_pipeline/blast_runner.py`  (`build_unassigned_fasta`)
* `src/rna_pipeline/featurecounts.py` (`parseAssignments`)
* `src/rna_pipeline/assign_split.py`  (`_extract_read_id_from_header`, `_write_filtered_fastq`)
-/

/-- Python strings, one entry per code point. -/
abbrev PyStr := List Char

/-- Python's notion of whitespace for `str.strip()` / `str.split()`. -/
def isPySpace (c : Char) : Bool :=
  c = ' ' || c = '\t' || c = '\n' || c = '\r' || c = '\x0b' || c = '\x0c'

/-- Python `s.strip()`: drop whitespace from both ends. -/
def pyStrip (s : PyStr) : PyStr :=
  ((s.dropWhile isPySpace).reverse.dropWhile isPySpace).reverse

/-- Python `s.split('\t')`: split on every tab, keeping empty fields. -/
def splitOnTab : PyStr → List PyStr
  | [] => [[]]
  | c :: cs =>
    if c = '\t' then [] :: splitOnTab cs
    else
      match splitOnTab cs with
      | [] => [[c]]
      | f :: rest => (c :: f) :: rest

/-- Python `s.split()[0]`: first whitespace-delimited token, `none` when the
string holds no token (where Python raises `IndexError`). -/
def firstToken (s : PyStr) : Option PyStr :=
  let t := s.dropWhile isPySpace
  if t = [] then none else some (t.takeWhile (fun c => !isPySpace c))

/-- Exact decimal rational `num / 10 ^ dexp`, the values produced by parsing
the numeric fields of BLAST tabular output. -/
structure PyNum where
  num : Int
  dexp : Nat
deriving DecidableEq, Repr

instance : Inhabited PyNum := ⟨⟨0, 0⟩⟩

/-- Value of a `PyNum` as a rational number. -/
def PyNum.toRat (a : PyNum) : ℚ := (a.num : ℚ) / 10 ^ a.dexp

/-- Strict order on `PyNum` values by cross multiplication (kernel-computable). -/
def pyLt (a b : PyNum) : Bool := decide (a.num * 10 ^ b.dexp < b.num * 10 ^ a.dexp)

/-- Lax order on `PyNum` values by cross multiplication (kernel-computable). -/
def pyLe (a b : PyNum) : Bool := decide (a.num * 10 ^ b.dexp ≤ b.num * 10 ^ a.dexp)

/-- Digit run to a natural number. -/
def natOfDigits (s : PyStr) : Nat := s.foldl (fun n c => 10 * n + (c.toNat - 48)) 0

/-- Parse the mantissa `digits [. digits]` / `. digits`; returns the value and
the unconsumed remainder. -/
def parseMantissa (s : PyStr) : Option (PyNum × PyStr) :=
  let ip := s.takeWhile Char.isDigit
  let r1 := s.dropWhile Char.isDigit
  match r1 with
  | '.' :: r2 =>
    let fp := r2.takeWhile Char.isDigit
    let r3 := r2.dropWhile Char.isDigit
    if ip = [] && fp = [] then none
    else some (⟨(natOfDigits (ip ++ fp) : Int), fp.length⟩, r3)
  | _ => if ip = [] then none else some (⟨(natOfDigits ip : Int), 0⟩, r1)

/-- Parse the exponent suffix after `e`/`E`: optional sign then digits,
consuming the whole remainder. -/
def parseExpSuffix (s : PyStr) : Option Int :=
  let (neg, t) :=
    match s with
    | '+' :: r => (false, r)
    | '-' :: r => (true, r)
    | _ => (false, s)
  if t = [] || !t.all Char.isDigit then none
  else some (if neg then -(natOfDigits t : Int) else (natOfDigits t : Int))

/-- Apply a base-ten exponent to a mantissa. -/
def applyExp (m : PyNum) (e : Int) : PyNum :=
  if 0 ≤ e then ⟨m.num * 10 ^ e.toNat, m.dexp⟩ else ⟨m.num, m.dexp + (-e).toNat⟩

/-- Model of Python `float(s)` on the decimal / scientific literals occurring
in BLAST output: optional surrounding whitespace, optional sign, mantissa,
optional `e`/`E` exponent.  `none` models `ValueError`.  (Python also accepts
`inf`, `nan` and underscore separators; those never occur here.) -/
def pyFloat (s0 : PyStr) : Option PyNum :=
  let s := pyStrip s0
  let (neg, s1) :=
    match s with
    | '+' :: r => (false, r)
    | '-' :: r => (true, r)
    | _ => (false, s)
  match parseMantissa s1 with
  | none => none
  | some (m, rest) =>
    let signed : PyNum := if neg then ⟨-m.num, m.dexp⟩ else m
    match rest with
    | [] => some signed
    | c :: r2 =>
      if c = 'e' || c = 'E' then (parseExpSuffix r2).map (applyExp signed)
      else none

/-! ## blast_parser.py -/

/-- Model of `getSampleFromReadID` (blast_parser.py): everything before the
first `_`, or the sentinel `"Unknown Sample"` when no `_` occurs. -/
def getSampleFromReadID (readID : PyStr) : PyStr :=
  if '_' ∈ readID then readID.takeWhile (fun c => c ≠ '_') else "Unknown Sample".data

/-- One parsed BLAST hit as used by `filterAndSummarize`: the stored stripped
line plus the fields the function extracts. -/
structure Hit where
  row : PyStr
  qseqid : PyStr
  pident : PyNum
  qcovs : PyNum
  evalue : PyNum
  bitscore : PyNum
deriving DecidableEq, Repr

/-- Outcome of `filterAndSummarize`'s per-line processing before the best-hit
fold: the line is silently skipped, aborts the run (`ValueError` from
`float`), or yields a candidate hit together with its filter outcome. -/
inductive LineRes where
  | skip : LineRes
  | err : LineRes
  | cand : Hit → Bool → LineRes
deriving DecidableEq, Repr

/-- Per-line processing of `filterAndSummarize` (blast_parser.py lines 48-67):
skip comments / blank lines / lines with fewer than 14 tab fields, parse the
four numeric fields (aborting on `ValueError`), and evaluate the filter
`pident >= minPident and qcovs >= minQcov and evalue <= maxEvalue`. -/
def lineClass (minPident minQcov maxEvalue : PyNum) (line : PyStr) : LineRes :=
  if line.head? = some '#' || pyStrip line = [] then .skip
  else
    let columns := splitOnTab (pyStrip line)
    if columns.length < 14 then .skip
    else
      match pyFloat (columns.getD 2 []), pyFloat (columns.getD 12 []),
            pyFloat (columns.getD 10 []), pyFloat (columns.getD 11 []) with
      | some pid, some qc, some ev, some bs =>
        .cand ⟨pyStrip line, columns.getD 0 [], pid, qc, ev, bs⟩
          (pyLe minPident pid && pyLe minQcov qc && pyLe ev maxEvalue)
      | _, _, _, _ => .err

/-- One entry of the `bestHits` dict: `qseqid ↦ (stored line, bitscore)`;
the list order models CPython's dict insertion order. -/
abbrev BestEntry := PyStr × PyStr × PyNum

/-- Model of `bestHits[qseqid] = ...` (blast_parser.py lines 69-77): a new key
is appended, an existing key is replaced in place when the new bitscore is
strictly greater. -/
def updateBest : List BestEntry → PyStr → PyStr → PyNum → List BestEntry
  | [], qid, row, bs => [(qid, row, bs)]
  | (q, r, b) :: rest, qid, row, bs =>
    if q = qid then
      if pyLt b bs then (q, row, bs) :: rest else (q, r, b) :: rest
    else (q, r, b) :: updateBest rest qid row bs

/-- The streaming best-hit fold of `filterAndSummarize` over the raw lines of
the BLAST tabular file; `none` models an uncaught `ValueError` aborting the
run. -/
def runLines (minPident minQcov maxEvalue : PyNum) :
    List PyStr → List BestEntry → Option (List BestEntry)
  | [], st => some st
  | l :: ls, st =>
    match lineClass minPident minQcov maxEvalue l with
    | .skip => runLines minPident minQcov maxEvalue ls st
    | .err => none
    | .cand h pass =>
      runLines minPident minQcov maxEvalue ls
        (if pass then updateBest st h.qseqid h.row h.bitscore else st)

/-- The matched rows written to `matchedSequences.tsv`: the stored lines of
`bestHits.values()` in dict (insertion) order. -/
def rowsOf (st : List BestEntry) : List PyStr := st.map (fun e => e.2.1)

/-- The `(sampleID, stitle)` key recomputed from a stored line in the summary
loop of `filterAndSummarize` (blast_parser.py lines 111-123). -/
def rowKey (row : PyStr) : PyStr × PyStr :=
  (getSampleFromReadID ((splitOnTab row).getD 0 []), (splitOnTab row).getD 13 [])

/-- Model of `summaryCounts[key] += 1` on a dict kept as an insertion-ordered
association list. -/
def bumpCount : List ((PyStr × PyStr) × Nat) → (PyStr × PyStr) → List ((PyStr × PyStr) × Nat)
  | [], k => [(k, 1)]
  | (k0, c) :: rest, k =>
    if k0 = k then (k0, c + 1) :: rest else (k0, c) :: bumpCount rest k

/-- The summary-count dict built from the retained hits, in insertion order. -/
def summaryCountsOf (st : List BestEntry) : List ((PyStr × PyStr) × Nat) :=
  (rowsOf st).foldl (fun m row => bumpCount m (rowKey row)) []

/-- Python's `<` on strings: lexicographic by code point. -/
def strLtB : PyStr → PyStr → Bool
  | [], [] => false
  | [], _ :: _ => true
  | _ :: _, [] => false
  | a :: as, b :: bs => if a < b then true else if b < a then false else strLtB as bs

/-- Comparison used by `sorted(summaryCounts.items(), key=(sampleID, -count))`:
lexicographic on the pair (sample id ascending, count descending). -/
def sumLtB (x y : (PyStr × PyStr) × Nat) : Bool :=
  strLtB x.1.1 y.1.1 || (decide (x.1.1 = y.1.1) && decide (y.2 < x.2))

/-- Insert into a sorted list, after all entries that do not strictly exceed
the new one; with `insSortFold` this models a stable ascending sort. -/
def insSorted (lt : α → α → Bool) (a : α) : List α → List α
  | [] => [a]
  | b :: bs => if lt a b then a :: b :: bs else b :: insSorted lt a bs

/-- Stable ascending sort (the behaviour of Python's `sorted` with a key):
elements are inserted left to right, each landing after earlier equals. -/
def insSortFold (lt : α → α → Bool) (l : List α) : List α :=
  l.foldl (fun acc a => insSorted lt a acc) []

/-- The sorted summary rows written to `summaryPerSample.tsv`
(blast_parser.py line 132). -/
def sortedSummaryOf (st : List BestEntry) : List ((PyStr × PyStr) × Nat) :=
  insSortFold sumLtB (summaryCountsOf st)

/-- The filter-passing candidates a given `qseqid` ever offers to the best-hit
fold, in stream order: `(stored line, bitscore)` pairs. -/
def candidatesFor (minPident minQcov maxEvalue : PyNum) (qid : PyStr)
    (lines : List PyStr) : List (PyStr × PyNum) :=
  lines.filterMap fun l =>
    match lineClass minPident minQcov maxEvalue l with
    | .cand h pass =>
      if pass && decide (h.qseqid = qid) then some (h.row, h.bitscore) else none
    | _ => none

/-- Specification-side reduction rule: the first candidate whose bitscore is
greater than or equal to every candidate's bitscore (first-seen among the
maximal ones). -/
def specRetained (cs : List (PyStr × PyNum)) : Option (PyStr × PyNum) :=
  cs.find? fun c => cs.all fun c2 => pyLe c2.2 c.2

/-- Reference fold for a single query id: how `filterAndSummarize` combines
the successive candidates of one `qseqid`. -/
def foldBest : Option (PyStr × PyNum) → List (PyStr × PyNum) → Option (PyStr × PyNum)
  | acc, [] => acc
  | none, c :: cs => foldBest (some c) cs
  | some (r, b), (r2, b2) :: cs =>
    foldBest (some (if pyLt b b2 then (r2, b2) else (r, b))) cs

/-- Dict lookup on the `bestHits` association list. -/
def lookupBest (qid : PyStr) : List BestEntry → Option (PyStr × PyNum)
  | [] => none
  | (q, r, b) :: rest => if q = qid then some (r, b) else lookupBest qid rest

/-- The query ids of the filter-passing hits, in stream order (with
repetitions). -/
def passingQids (minPident minQcov maxEvalue : PyNum) (lines : List PyStr) : List PyStr :=
  lines.filterMap fun l =>
    match lineClass minPident minQcov maxEvalue l with
    | .cand h pass => if pass then some h.qseqid else none
    | _ => none

/-- First occurrences of a list of keys, skipping keys already in `seen`:
the insertion order of a dict fed those keys. -/
def firstOccFrom : List PyStr → List PyStr → List PyStr
  | _, [] => []
  | seen, q :: qs =>
    if q ∈ seen then firstOccFrom seen qs else q :: firstOccFrom (q :: seen) qs

/-- Tolerated-malformation predicate of the resolver: comment line, blank
line, or fewer than 14 tab-separated fields. -/
def skipLine (l : PyStr) : Bool :=
  (l.head? = some '#') || decide (pyStrip l = []) || decide ((splitOnTab (pyStrip l)).length < 14)

/-- The e_value field re-read from a stored line. -/
def rowEvalue (row : PyStr) : Option PyNum := pyFloat ((splitOnTab row).getD 10 [])

/-! ## blast_runner.py -/

/-- Header conversion of `build_unassigned_fasta` (blast_runner.py lines
57-66): strip, then replace a leading `@` by `>` (or prepend `>`). -/
def fastaHeaderOf (header : PyStr) : PyStr :=
  let hs := pyStrip header
  if hs.head? = some '@' then '>' :: hs.tail else '>' :: hs

/-- The `(header, sequence)` FASTA entries `build_unassigned_fasta` emits for
one FASTQ file, reading four lines per record and keeping header and sequence
(blast_runner.py lines 46-68).  Only the header read is checked against
end-of-file; `[]` models the empty string `readline` returns there. -/
def fastaEntriesOfFile : List PyStr → List (PyStr × PyStr)
  | [] => []
  | [h] => if h = [] then [] else [(fastaHeaderOf h, [])]
  | [h, s] => if h = [] then [] else [(fastaHeaderOf h, pyStrip s)]
  | [h, s, _] => if h = [] then [] else [(fastaHeaderOf h, pyStrip s)]
  | h :: s :: _ :: _ :: rest =>
    if h = [] then []
    else (fastaHeaderOf h, pyStrip s) :: fastaEntriesOfFile rest

/-- Model of `build_unassigned_fasta` over the (already sorted) list of
matched FASTQ files, each given as its list of lines: all entries of all
files, concatenated in order.  The function takes no record cap. -/
def buildUnassignedFasta (files : List (List PyStr)) : List (PyStr × PyStr) :=
  (files.map fastaEntriesOfFile).flatten

/-! ## featurecounts.py -/

/-- Model of the `SampleAssignments` dataclass: the two read-id sets (kept as
insertion-ordered lists with set semantics) and the five category counters. -/
structure SampleAssignments where
  assignedIds : List PyStr
  unassignedIds : List PyStr
  cAssigned : Nat
  cUnmapped : Nat
  cNoFeatures : Nat
  cMappingQuality : Nat
  cAmbiguity : Nat
deriving DecidableEq, Repr

/-- Python `set.add`: insert when absent. -/
def setInsert (x : PyStr) (s : List PyStr) : List PyStr := if x ∈ s then s else s ++ [x]

/-- Processing of one read record by `parseAssignments` (featurecounts.py
lines 122-142): the read id and its optional `XS` tag. -/
def parseStep (st : SampleAssignments) (rec : PyStr × Option PyStr) : SampleAssignments :=
  if rec.2 = some "Assigned".data then
    ⟨setInsert rec.1 st.assignedIds, st.unassignedIds, st.cAssigned + 1,
      st.cUnmapped, st.cNoFeatures, st.cMappingQuality, st.cAmbiguity⟩
  else
    ⟨st.assignedIds, setInsert rec.1 st.unassignedIds, st.cAssigned,
      st.cUnmapped + (if rec.2 = some "Unassigned_Unmapped".data then 1 else 0),
      st.cNoFeatures + (if rec.2 = some "Unassigned_NoFeatures".data then 1 else 0),
      st.cMappingQuality + (if rec.2 = some "Unassigned_MappingQuality".data then 1 else 0),
      st.cAmbiguity + (if rec.2 = some "Unassigned_Ambiguous".data then 1 else 0)⟩

/-- Model of `parseAssignments` for one sample: fold the stream of
`(read id, optional tag)` records into a `SampleAssignments`. -/
def parseAssignments (stream : List (PyStr × Option PyStr)) : SampleAssignments :=
  stream.foldl parseStep ⟨[], [], 0, 0, 0, 0, 0⟩

/-! ## assign_split.py -/

/-- Model of `_extract_read_id_from_header` (assign_split.py lines 68-77):
strip, drop a leading `@`, take the first whitespace token; `none` models the
`IndexError` Python raises when the header holds no token. -/
def extractReadIdFromHeader (header : PyStr) : Option PyStr :=
  let h1 := pyStrip header
  let h2 := if h1.head? = some '@' then h1.tail else h1
  firstToken h2

/-- The 4-lines-at-a-time loop of `_write_filtered_fastq` (assign_split.py
lines 182-197): returns the output lines and the record count, `none`
modelling an uncaught exception from the header parse.  Reads past the end of
the file are modelled as `[]`, the empty string `readline` returns there. -/
def fastqLoop (keepIds : List PyStr) : List PyStr → Option (List PyStr × Nat)
  | [] => some ([], 0)
  | [_] => some ([], 0)
  | [_, _] => some ([], 0)
  | [_, _, _] => some ([], 0)
  | h :: s :: p :: q :: rest =>
    if h = [] then some ([], 0)
    else if q = [] then some ([], 0)
    else
      match extractReadIdFromHeader h with
      | none => none
      | some rid =>
        match fastqLoop keepIds rest with
        | none => none
        | some (out, n) =>
          if rid ∈ keepIds then some ([h, s, p, q] ++ out, n + 1) else some (out, n)

/-- Model of `_write_filtered_fastq` (assign_split.py lines 164-203): `none`
for `keepIds` models an absent keep-set, `none` for `input` models a missing
input file (`FileNotFoundError`, caught); both produce an empty output and a
zero count.  The outer `none` models an uncaught exception. -/
def writeFilteredFastq (input : Option (List PyStr)) (keepIds : Option (List PyStr)) :
    Option (List PyStr × Nat) :=
  match keepIds with
  | none => some ([], 0)
  | some ks =>
    match input with
    | none => some ([], 0)
    | some lines => fastqLoop ks lines

/-- Flatten 4-line records into the line list of a FASTQ file. -/
def flatRecords (recs : List (PyStr × PyStr × PyStr × PyStr)) : List PyStr :=
  recs.flatMap fun r => [r.1, r.2.1, r.2.2.1, r.2.2.2]

/-! ## Concrete data used in witnesses and counterexamples -/

/-- A full 14-field BLAST line for query `q1`: bitscore 90, e-value 1e-3. -/
def lineA : PyStr := "q1\tsubj1\t95.0\t100\t0\t0\t1\t100\t1\t100\t0.001\t90\t80\torgX".data

/-- A second hit for `q1`: equal bitscore 90, strictly lower e-value 1e-10. -/
def lineB : PyStr := "q1\tsubj2\t95.0\t100\t0\t0\t1\t100\t1\t100\t1e-10\t90\t80\torgY".data

/-- A filter-passing hit for a second query `q2`. -/
def lineC : PyStr := "q2\tsubj3\t99.0\t100\t0\t0\t1\t100\t1\t100\t1e-20\t120\t95\torgZ".data

/-- A later, strictly better hit for `q1`: bitscore 150. -/
def lineD : PyStr := "q1\tsubj4\t97.0\t100\t0\t0\t1\t100\t1\t100\t1e-30\t150\t90\torgW".data

/-- A 14-field line whose percent-identity field is not a number. -/
def lineBad : PyStr := "q9\ts\tNOTANUM\t1\t1\t1\t1\t1\t1\t1\t0.001\t90\t80\torg".data

/-- Percent-identity threshold 90. -/
def thrP : PyNum := ⟨90, 0⟩

/-- Query-coverage threshold 70. -/
def thrQ : PyNum := ⟨70, 0⟩

/-- E-value threshold 1. -/
def thrE : PyNum := ⟨1, 0⟩

/-- A five-record FASTQ file whose read ids carry the `A_` prefix. -/
def fileA5 : List PyStr :=
  (List.range 5).flatMap fun i =>
    [('@' :: 'A' :: '_' :: 'r' :: Char.ofNat (48 + i) :: []), "ACGT".data, "+".data, "IIII".data]

/-- A five-record FASTQ file whose read ids carry the `B_` prefix. -/
def fileB5 : List PyStr :=
  (List.range 5).flatMap fun i =>
    [('@' :: 'B' :: '_' :: 'r' :: Char.ofNat (48 + i) :: []), "ACGT".data, "+".data, "IIII".data]

/-- A comment line as BLAST writes it. -/
def commentLine : PyStr := "# BLASTN 2.12.0".data

/-- A tag stream in which read `r` first appears tagged `Assigned`, then with
an unassigned tag: the shape that distinguishes add-only sets from
last-write-wins. -/
def mixedTagStream : List (PyStr × Option PyStr) :=
  [("r".data, some "Assigned".data), ("r".data, some "Unassigned_Unmapped".data)]

/-- The `bestHits` state after streaming `[lineA, lineB]`. -/
def stC1 : List BestEntry := [("q1".data, lineA, ⟨90, 0⟩)]

/-- The `bestHits` state after streaming `[lineA, lineC, lineD]`: the `q1`
entry has been replaced in place by the better hit `lineD`. -/
def stC10 : List BestEntry :=
  [("q1".data, lineD, ⟨150, 0⟩), ("q2".data, lineC, ⟨120, 0⟩)]

/-- Two complete FASTQ records used to witness the partition round trip. -/
def recsC8 : List (PyStr × PyStr × PyStr × PyStr) :=
  [("@r1 desc".data, "ACGT".data, "+".data, "IIII".data),
   ("@r2".data, "GGTA".data, "+".data, "JJJJ".data)]

/-- Keep-set holding every read id of `recsC8`. -/
def keepC8 : List PyStr := ["r1".data, "r2".data]

/-! ## Theorems

First the order facts for `PyNum` comparisons and for Python string
comparison, then the generic lemmas about the stable sort, then the per-claim
results. -/

theorem pyLt_iff (a b : PyNum) : pyLt a b = true ↔ a.toRat < b.toRat := by
  unfold pyLt PyNum.toRat
  rw [decide_eq_true_iff, div_lt_div_iff₀ (by positivity) (by positivity)]
  constructor
  · intro h; exact_mod_cast h
  · intro h; exact_mod_cast h

theorem pyLe_iff (a b : PyNum) : pyLe a b = true ↔ a.toRat ≤ b.toRat := by
  unfold pyLe PyNum.toRat
  rw [decide_eq_true_iff, div_le_div_iff₀ (by positivity) (by positivity)]
  constructor
  · intro h; exact_mod_cast h
  · intro h; exact_mod_cast h

theorem pyLt_eq_false_iff (a b : PyNum) : pyLt a b = false ↔ b.toRat ≤ a.toRat := by
  rw [← not_lt, ← pyLt_iff]
  cases h : pyLt a b <;> simp

theorem pyLe_eq_false_iff (a b : PyNum) : pyLe a b = false ↔ b.toRat < a.toRat := by
  rw [← not_le, ← pyLe_iff]
  cases h : pyLe a b <;> simp

theorem strLtB_irrefl (s : PyStr) : strLtB s s = false := by
  induction s with
  | nil => rfl
  | cons a as ih => simp [strLtB, ih]

theorem strLtB_asymm {a b : PyStr} (h : strLtB a b = true) : strLtB b a = false := by
  induction a generalizing b with
  | nil =>
    cases b with
    | nil => simp [strLtB] at h
    | cons c cs => simp [strLtB]
  | cons x xs ih =>
    cases b with
    | nil => simp [strLtB] at h
    | cons y ys =>
      by_cases hxy : x < y
      · simp [strLtB, hxy, asymm hxy, lt_irrefl]
      · by_cases hyx : y < x
        · simp [strLtB, hxy, hyx] at h
        · have hsub : strLtB xs ys = true := by simpa [strLtB, hxy, hyx] using h
          simp [strLtB, hxy, hyx, ih hsub]

theorem strLtB_trans {a b c : PyStr} (h1 : strLtB a b = true) (h2 : strLtB b c = true) :
    strLtB a c = true := by
  induction a generalizing b c with
  | nil =>
    cases b with
    | nil => simp [strLtB] at h1
    | cons y ys =>
      cases c with
      | nil => simp [strLtB] at h2
      | cons z zs => simp [strLtB]
  | cons x xs ih =>
    cases b with
    | nil => simp [strLtB] at h1
    | cons y ys =>
      cases c with
      | nil => simp [strLtB] at h2
      | cons z zs =>
        by_cases hxy : x < y
        · by_cases hyz : y < z
          · simp [strLtB, lt_trans hxy hyz]
          · by_cases hzy : z < y
            · simp [strLtB, hyz, hzy] at h2
            · have : y = z := le_antisymm (le_of_not_lt hzy) (le_of_not_lt hyz)
              subst this
              simp [strLtB, hxy]
        · by_cases hyx : y < x
          · simp [strLtB, hxy, hyx] at h1
          · have hxy2 : x = y := le_antisymm (le_of_not_lt hyx) (le_of_not_lt hxy)
            subst hxy2
            by_cases hxz : x < z
            · simp [strLtB, hxz]
            · by_cases hzx : z < x
              · simp [strLtB, hzx, asymm hzx] at h2
              · have h1s : strLtB xs ys = true := by simpa [strLtB, lt_irrefl] using h1
                have h2s : strLtB ys zs = true := by simpa [strLtB, hxz, hzx] using h2
                simp [strLtB, hxz, hzx, ih h1s h2s]

theorem strLtB_conn {a b : PyStr} (h1 : strLtB a b = false) (h2 : strLtB b a = false) :
    a = b := by
  induction a generalizing b with
  | nil =>
    cases b with
    | nil => rfl
    | cons y ys => simp [strLtB] at h1
  | cons x xs ih =>
    cases b with
    | nil => simp [strLtB] at h2
    | cons y ys =>
      by_cases hxy : x < y
      · simp [strLtB, hxy] at h1
      · by_cases hyx : y < x
        · simp [strLtB, hyx] at h2
        · have hxy2 : x = y := le_antisymm (le_of_not_lt hyx) (le_of_not_lt hxy)
          subst hxy2
          have h1s : strLtB xs ys = false := by simpa [strLtB, lt_irrefl] using h1
          have h2s : strLtB ys xs = false := by simpa [strLtB, lt_irrefl] using h2
          rw [ih h1s h2s]

theorem strLtB_false_iff {a b : PyStr} :
    strLtB a b = false ↔ (strLtB b a = true ∨ a = b) := by
  constructor
  · intro h
    by_cases h2 : strLtB b a = true
    · exact Or.inl h2
    · exact Or.inr (strLtB_conn h (by simpa using h2))
  · rintro (h | rfl)
    · exact strLtB_asymm h
    · exact strLtB_irrefl a

theorem sumLtB_iff {x y : (PyStr × PyStr) × Nat} :
    sumLtB x y = true ↔ (strLtB x.1.1 y.1.1 = true ∨ (x.1.1 = y.1.1 ∧ y.2 < x.2)) := by
  simp [sumLtB]

theorem sumLtB_asymm {x y : (PyStr × PyStr) × Nat} (h : sumLtB x y = true) :
    sumLtB y x = false := by
  rw [sumLtB_iff] at h
  cases hb : sumLtB y x
  · rfl
  · exfalso
    rw [sumLtB_iff] at hb
    rcases h with h | ⟨he, hc⟩ <;> rcases hb with hb | ⟨hbe, hbc⟩
    · rw [strLtB_asymm h] at hb; exact Bool.false_ne_true hb
    · rw [hbe, strLtB_irrefl] at h; exact Bool.false_ne_true h
    · rw [he, strLtB_irrefl] at hb; exact Bool.false_ne_true hb
    · omega

theorem sumLtB_trans {x y z : (PyStr × PyStr) × Nat} (h1 : sumLtB x y = true)
    (h2 : sumLtB y z = true) : sumLtB x z = true := by
  rw [sumLtB_iff] at h1 h2 ⊢
  rcases h1 with h1 | ⟨he1, hc1⟩ <;> rcases h2 with h2 | ⟨he2, hc2⟩
  · exact Or.inl (strLtB_trans h1 h2)
  · rw [← he2] at *; exact Or.inl h1
  · rw [he1] at *; exact Or.inl h2
  · exact Or.inr ⟨he1.trans he2, by omega⟩

theorem sumLtB_eq_false_iff {a b : (PyStr × PyStr) × Nat} :
    sumLtB b a = false ↔ (strLtB a.1.1 b.1.1 = true ∨ (a.1.1 = b.1.1 ∧ b.2 ≤ a.2)) := by
  rw [sumLtB]
  simp only [Bool.or_eq_false_iff, Bool.and_eq_false_iff, decide_eq_false_iff_not, not_lt]
  constructor
  · rintro ⟨hs, hrest⟩
    rcases strLtB_false_iff.mp hs with hab | hba
    · exact Or.inl hab
    · rcases hrest with hne | hle
      · exact absurd hba hne
      · exact Or.inr ⟨hba.symm, hle⟩
  · rintro (hab | ⟨he, hle⟩)
    · refine ⟨strLtB_asymm hab, Or.inl ?_⟩
      intro heq
      rw [heq, strLtB_irrefl] at hab
      exact absurd hab (by simp)
    · rw [he]
      exact ⟨strLtB_irrefl _, Or.inr hle⟩

theorem sumLtB_negtrans {x z : (PyStr × PyStr) × Nat} (h : sumLtB x z = true)
    (y : (PyStr × PyStr) × Nat) : sumLtB x y = true ∨ sumLtB y z = true := by
  cases h1 : sumLtB x y
  · cases h2 : sumLtB y z
    · exfalso
      rw [sumLtB_iff] at h
      have hyx := sumLtB_eq_false_iff.mp h1
      have hzy := sumLtB_eq_false_iff.mp h2
      rcases hyx with hyx | ⟨hyx1, hyx2⟩ <;> rcases hzy with hzy | ⟨hzy1, hzy2⟩
      · have hzx : strLtB z.1.1 x.1.1 = true := strLtB_trans hzy hyx
        rcases h with h | ⟨he, _⟩
        · rw [strLtB_asymm h] at hzx
          exact absurd hzx (by simp)
        · rw [he, strLtB_irrefl] at hzx
          exact absurd hzx (by simp)
      · rw [← hzy1] at hyx
        rcases h with h | ⟨he, _⟩
        · rw [strLtB_asymm h] at hyx
          exact absurd hyx (by simp)
        · rw [he, strLtB_irrefl] at hyx
          exact absurd hyx (by simp)
      · rw [hyx1] at hzy
        rcases h with h | ⟨he, _⟩
        · rw [strLtB_asymm h] at hzy
          exact absurd hzy (by simp)
        · rw [he, strLtB_irrefl] at hzy
          exact absurd hzy (by simp)
      · rcases h with h | ⟨he, hc⟩
        · rw [hzy1.trans hyx1, strLtB_irrefl] at h
          exact absurd h (by simp)
        · omega
    · exact Or.inr rfl
  · exact Or.inl rfl

theorem insSorted_cons_pos (lt : α → α → Bool) (a b : α) (bs : List α) (h : lt a b = true) :
    insSorted lt a (b :: bs) = a :: b :: bs := by
  simp [insSorted, h]

theorem insSorted_cons_neg (lt : α → α → Bool) (a b : α) (bs : List α) (h : lt a b = false) :
    insSorted lt a (b :: bs) = b :: insSorted lt a bs := by
  simp [insSorted, h]

theorem insSorted_perm (lt : α → α → Bool) (a : α) (l : List α) :
    List.Perm (insSorted lt a l) (a :: l) := by
  induction l with
  | nil => exact List.Perm.refl _
  | cons b bs ih =>
    cases h : lt a b
    · rw [insSorted_cons_neg lt a b bs h]
      exact List.Perm.trans (List.Perm.cons b ih) (List.Perm.swap a b bs)
    · rw [insSorted_cons_pos lt a b bs h]

theorem mem_insSorted (lt : α → α → Bool) (a x : α) (l : List α) :
    x ∈ insSorted lt a l ↔ x = a ∨ x ∈ l := by
  rw [(insSorted_perm lt a l).mem_iff, List.mem_cons]

theorem insSorted_pairwise (lt : α → α → Bool)
    (hasym : ∀ u v, lt u v = true → lt v u = false)
    (htrans : ∀ u v w, lt u v = true → lt v w = true → lt u w = true)
    (a : α) (l : List α) (hl : l.Pairwise fun u v => lt v u = false) :
    (insSorted lt a l).Pairwise fun u v => lt v u = false := by
  induction l with
  | nil => simp [insSorted]
  | cons b bs ih =>
    rw [List.pairwise_cons] at hl
    obtain ⟨hb, hbs⟩ := hl
    cases h : lt a b
    · rw [insSorted_cons_neg lt a b bs h, List.pairwise_cons]
      refine ⟨?_, ih hbs⟩
      intro x hx
      rcases (mem_insSorted lt a x bs).mp hx with rfl | hx
      · exact h
      · exact hb x hx
    · rw [insSorted_cons_pos lt a b bs h, List.pairwise_cons]
      refine ⟨?_, List.Pairwise.cons hb hbs⟩
      intro x hx
      rcases List.mem_cons.mp hx with rfl | hx
      · exact hasym a x h
      · cases hxa : lt x a
        · rfl
        · exact absurd (htrans x a b hxa h) (by simp [hb x hx])

theorem insSortFoldAux_pairwise (lt : α → α → Bool)
    (hasym : ∀ u v, lt u v = true → lt v u = false)
    (htrans : ∀ u v w, lt u v = true → lt v w = true → lt u w = true)
    (l : List α) :
    ∀ acc, acc.Pairwise (fun u v => lt v u = false) →
      (l.foldl (fun acc a => insSorted lt a acc) acc).Pairwise fun u v => lt v u = false := by
  induction l with
  | nil => intro acc hacc; exact hacc
  | cons a ls ih =>
    intro acc hacc
    exact ih (insSorted lt a acc) (insSorted_pairwise lt hasym htrans a acc hacc)

theorem insSortFold_pairwise (lt : α → α → Bool)
    (hasym : ∀ u v, lt u v = true → lt v u = false)
    (htrans : ∀ u v w, lt u v = true → lt v w = true → lt u w = true)
    (l : List α) :
    (insSortFold lt l).Pairwise fun u v => lt v u = false :=
  insSortFoldAux_pairwise lt hasym htrans l [] List.Pairwise.nil

theorem insSortFoldAux_perm (lt : α → α → Bool) (l : List α) :
    ∀ acc, List.Perm (l.foldl (fun acc a => insSorted lt a acc) acc) (acc ++ l) := by
  induction l with
  | nil => intro acc; simp
  | cons a ls ih =>
    intro acc
    refine List.Perm.trans (ih (insSorted lt a acc)) ?_
    refine List.Perm.trans (List.Perm.append_right ls (insSorted_perm lt a acc)) ?_
    exact List.perm_middle.symm

theorem insSortFold_perm (lt : α → α → Bool) (l : List α) :
    List.Perm (insSortFold lt l) l :=
  insSortFoldAux_perm lt l []

theorem filter_insSorted_neg (lt : α → α → Bool) (p : α → Bool) (a : α)
    (hpa : p a = false) (l : List α) :
    (insSorted lt a l).filter p = l.filter p := by
  induction l with
  | nil => simp [insSorted, hpa]
  | cons b bs ih =>
    cases h : lt a b
    · rw [insSorted_cons_neg lt a b bs h, List.filter_cons, List.filter_cons, ih]
    · rw [insSorted_cons_pos lt a b bs h, List.filter_cons_of_neg (by simp [hpa])]

theorem filter_insSorted_pos (lt : α → α → Bool) (p : α → Bool) (a : α)
    (hpa : p a = true)
    (hincomp : ∀ u v, p u = true → p v = true → lt u v = false)
    (hneg : ∀ u w, lt u w = true → ∀ v, lt u v = true ∨ lt v w = true)
    (l : List α) (hl : l.Pairwise fun u v => lt v u = false) :
    (insSorted lt a l).filter p = l.filter p ++ [a] := by
  induction l with
  | nil => simp [insSorted, hpa]
  | cons b bs ih =>
    rw [List.pairwise_cons] at hl
    obtain ⟨hb, hbs⟩ := hl
    cases h : lt a b
    · rw [insSorted_cons_neg lt a b bs h, List.filter_cons, List.filter_cons, ih hbs]
      cases hpb : p b <;> simp
    · rw [insSorted_cons_pos lt a b bs h]
      have hnil : (b :: bs).filter p = [] := by
        rw [List.filter_eq_nil_iff]
        intro x hx
        rcases List.mem_cons.mp hx with rfl | hx
        · intro hpx
          exact absurd (hincomp a x hpa hpx) (by simp [h])
        · intro hpx
          rcases hneg a b h x with hax | hxb
          · exact absurd (hincomp a x hpa hpx) (by simp [hax])
          · exact absurd (hb x hx) (by simp [hxb])
      rw [List.filter_cons_of_pos hpa, hnil]
      rfl

theorem filter_insSortFoldAux (lt : α → α → Bool) (p : α → Bool)
    (hasym : ∀ u v, lt u v = true → lt v u = false)
    (htrans : ∀ u v w, lt u v = true → lt v w = true → lt u w = true)
    (hincomp : ∀ u v, p u = true → p v = true → lt u v = false)
    (hneg : ∀ u w, lt u w = true → ∀ v, lt u v = true ∨ lt v w = true)
    (l : List α) :
    ∀ acc, acc.Pairwise (fun u v => lt v u = false) →
      (l.foldl (fun acc a => insSorted lt a acc) acc).filter p = acc.filter p ++ l.filter p := by
  induction l with
  | nil => intro acc _; simp
  | cons a ls ih =>
    intro acc hacc
    rw [List.foldl_cons, ih (insSorted lt a acc) (insSorted_pairwise lt hasym htrans a acc hacc)]
    cases hpa : p a
    · rw [filter_insSorted_neg lt p a hpa acc, List.filter_cons_of_neg (by simp [hpa])]
    · rw [filter_insSorted_pos lt p a hpa hincomp hneg acc hacc,
        List.filter_cons_of_pos hpa, List.append_assoc]
      rfl

theorem filter_insSortFold (lt : α → α → Bool) (p : α → Bool)
    (hasym : ∀ u v, lt u v = true → lt v u = false)
    (htrans : ∀ u v w, lt u v = true → lt v w = true → lt u w = true)
    (hincomp : ∀ u v, p u = true → p v = true → lt u v = false)
    (hneg : ∀ u w, lt u w = true → ∀ v, lt u v = true ∨ lt v w = true)
    (l : List α) :
    (insSortFold lt l).filter p = l.filter p := by
  have h := filter_insSortFoldAux lt p hasym htrans hincomp hneg l [] List.Pairwise.nil
  simpa [insSortFold] using h

theorem pyLe_refl (a : PyNum) : pyLe a a = true := pyLe_iff a a |>.mpr le_rfl

theorem find?_congr {p q : β → Bool} : ∀ {l : List β}, (∀ x ∈ l, p x = q x) →
    l.find? p = l.find? q
  | [], _ => rfl
  | a :: as, h => by
    have ha := h a (List.mem_cons_self a as)
    rw [List.find?_cons, List.find?_cons, ← ha]
    cases hpa : p a
    · exact find?_congr fun x hx => h x (List.mem_cons_of_mem a hx)
    · rfl

theorem find?_cons_pos (p : β → Bool) (a : β) (l : List β) (h : p a = true) :
    List.find? p (a :: l) = some a := List.find?_cons_of_pos l h

theorem find?_cons_neg (p : β → Bool) (a : β) (l : List β) (h : p a = false) :
    List.find? p (a :: l) = List.find? p l := List.find?_cons_of_neg l (by simp [h])

theorem specRetained_step (r : PyStr) (b : PyNum) (r2 : PyStr) (b2 : PyNum)
    (cs : List (PyStr × PyNum)) :
    specRetained ((r, b) :: (r2, b2) :: cs) =
      specRetained ((if pyLt b b2 then (r2, b2) else (r, b)) :: cs) := by
  cases hb : pyLt b b2
  · -- b2.toRat ≤ b.toRat: dropping the second candidate changes nothing
    have hble : b2.toRat ≤ b.toRat := (pyLt_eq_false_iff b b2).mp hb
    rw [if_neg Bool.false_ne_true]
    unfold specRetained
    have hpt : ∀ c : PyStr × PyNum,
        (((r, b) :: (r2, b2) :: cs).all fun c2 => pyLe c2.2 c.2) =
          (((r, b) :: cs).all fun c2 => pyLe c2.2 c.2) := by
      intro c
      simp only [List.all_cons]
      cases hcb : pyLe b c.2
      · simp
      · have hc2 : pyLe b2 c.2 = true := by
          rw [pyLe_iff]
          exact le_trans hble ((pyLe_iff b c.2).mp hcb)
        simp [hc2]
    rw [find?_congr fun x _ => hpt x]
    cases hA : ((r, b) :: cs).all fun c2 => pyLe c2.2 (r, b).2
    · -- head fails: the second candidate fails as well, tails coincide
      have hB : (((r, b) :: cs).all fun c2 => pyLe c2.2 (r2, b2).2) = false := by
        cases hBv : ((r, b) :: cs).all fun c2 => pyLe c2.2 (r2, b2).2
        · rfl
        · exfalso
          rw [List.all_eq_true] at hBv
          have hbb2 : b.toRat ≤ b2.toRat :=
            (pyLe_iff b b2).mp (hBv (r, b) (List.mem_cons_self _ _))
          have heq : b2.toRat = b.toRat := le_antisymm hble hbb2
          have hAt : (((r, b) :: cs).all fun c2 => pyLe c2.2 (r, b).2) = true := by
            rw [List.all_eq_true]
            intro x hx
            rw [pyLe_iff, ← heq]
            exact (pyLe_iff x.2 b2).mp (hBv x hx)
          rw [hAt] at hA
          exact absurd hA (by simp)
      rw [find?_cons_neg (fun x => ((r, b) :: cs).all fun c2 => pyLe c2.2 x.2)
          (r, b) ((r2, b2) :: cs) hA,
        find?_cons_neg (fun x => ((r, b) :: cs).all fun c2 => pyLe c2.2 x.2)
          (r2, b2) cs hB,
        find?_cons_neg (fun x => ((r, b) :: cs).all fun c2 => pyLe c2.2 x.2)
          (r, b) cs hA]
    · rw [find?_cons_pos (fun x => ((r, b) :: cs).all fun c2 => pyLe c2.2 x.2)
          (r, b) ((r2, b2) :: cs) hA,
        find?_cons_pos (fun x => ((r, b) :: cs).all fun c2 => pyLe c2.2 x.2)
          (r, b) cs hA]
  · -- b.toRat < b2.toRat: the first candidate can never be the maximum
    have hblt : b.toRat < b2.toRat := (pyLt_iff b b2).mp hb
    rw [if_pos rfl]
    unfold specRetained
    have hA : (((r, b) :: (r2, b2) :: cs).all fun c2 => pyLe c2.2 (r, b).2) = false := by
      cases hAv : ((r, b) :: (r2, b2) :: cs).all fun c2 => pyLe c2.2 (r, b).2
      · rfl
      · exfalso
        rw [List.all_eq_true] at hAv
        have hle := (pyLe_iff b2 b).mp
          (hAv (r2, b2) (List.mem_cons_of_mem _ (List.mem_cons_self _ _)))
        exact absurd hle (not_le.mpr hblt)
    rw [find?_cons_neg (fun x => ((r, b) :: (r2, b2) :: cs).all fun c2 => pyLe c2.2 x.2)
        (r, b) ((r2, b2) :: cs) hA]
    refine find?_congr ?_
    intro x hx
    simp only [List.all_cons]
    cases hx2 : pyLe b2 x.2 && cs.all fun c2 => pyLe c2.2 x.2
    · simp [hx2]
    · have hb2x : b2.toRat ≤ x.2.toRat := by
        rw [Bool.and_eq_true] at hx2
        exact (pyLe_iff b2 x.2).mp hx2.1
      have hbx : pyLe b x.2 = true := by
        rw [pyLe_iff]
        exact le_trans (le_of_lt hblt) hb2x
      simp [hbx, hx2]

theorem foldBest_nil (acc : Option (PyStr × PyNum)) : foldBest acc [] = acc := by
  cases acc with
  | none => rfl
  | some v =>
    obtain ⟨r, b⟩ := v
    rfl

theorem foldBest_some_eq (cs : List (PyStr × PyNum)) :
    ∀ (r : PyStr) (b : PyNum), foldBest (some (r, b)) cs = specRetained ((r, b) :: cs) := by
  induction cs with
  | nil =>
    intro r b
    unfold specRetained
    rw [find?_cons_pos (fun c => [(r, b)].all fun c2 => pyLe c2.2 c.2) (r, b) []
      (by simp [pyLe_refl])]
    rfl
  | cons c cs2 ih =>
    intro r b
    obtain ⟨r2, b2⟩ := c
    have hfold : foldBest (some (r, b)) ((r2, b2) :: cs2) =
        foldBest (some (if pyLt b b2 then (r2, b2) else (r, b))) cs2 := rfl
    rw [hfold, specRetained_step r b r2 b2 cs2]
    cases hb : pyLt b b2
    · rw [if_neg Bool.false_ne_true]
      exact ih r b
    · rw [if_pos rfl]
      exact ih r2 b2

theorem foldBest_none_eq (cs : List (PyStr × PyNum)) :
    foldBest none cs = specRetained cs := by
  cases cs with
  | nil => rfl
  | cons c cs2 => exact foldBest_some_eq cs2 c.1 c.2

theorem lookupBest_updateBest (st : List BestEntry) (q row : PyStr) (bs : PyNum) (qid : PyStr) :
    lookupBest qid (updateBest st q row bs) =
      if q = qid then
        (match lookupBest qid st with
         | none => some (row, bs)
         | some (r0, b0) => some (if pyLt b0 bs then (row, bs) else (r0, b0)))
      else lookupBest qid st := by
  induction st with
  | nil => by_cases h : q = qid <;> simp [updateBest, lookupBest, h]
  | cons e rest ih =>
    obtain ⟨q0, r0, b0⟩ := e
    by_cases h0 : q0 = q
    · subst h0
      by_cases hq : q0 = qid
      · subst hq
        cases hlt : pyLt b0 bs <;>
          simp [updateBest, lookupBest, hlt]
      · cases hlt : pyLt b0 bs <;>
          simp [updateBest, lookupBest, hlt, hq]
    · by_cases hq0 : q0 = qid
      · subst hq0
        have hq : ¬ q = q0 := fun h => h0 h.symm
        simp [updateBest, lookupBest, h0, hq]
      · simp [updateBest, lookupBest, h0, hq0, ih]

theorem runLines_lookup (minP minQ maxE : PyNum) (qid : PyStr) :
    ∀ (lines : List PyStr) (st0 st : List BestEntry),
      runLines minP minQ maxE lines st0 = some st →
      lookupBest qid st = foldBest (lookupBest qid st0) (candidatesFor minP minQ maxE qid lines) := by
  intro lines
  induction lines with
  | nil =>
    intro st0 st h
    simp only [runLines, Option.some.injEq] at h
    subst h
    exact (foldBest_nil _).symm
  | cons l ls ih =>
    intro st0 st h
    simp only [runLines] at h
    cases hlc : lineClass minP minQ maxE l
    case skip =>
      rw [hlc] at h
      have hc : candidatesFor minP minQ maxE qid (l :: ls) =
          candidatesFor minP minQ maxE qid ls := by
        simp [candidatesFor, List.filterMap_cons, hlc]
      rw [hc]
      exact ih st0 st h
    case err =>
      rw [hlc] at h
      exact absurd h (by simp)
    case cand hh pass =>
      rw [hlc] at h
      cases pass
      · have hc : candidatesFor minP minQ maxE qid (l :: ls) =
            candidatesFor minP minQ maxE qid ls := by
          simp [candidatesFor, List.filterMap_cons, hlc]
        rw [hc]
        exact ih st0 st h
      · by_cases hq : hh.qseqid = qid
        · have hc : candidatesFor minP minQ maxE qid (l :: ls) =
              (hh.row, hh.bitscore) :: candidatesFor minP minQ maxE qid ls := by
            simp [candidatesFor, List.filterMap_cons, hlc, hq]
          rw [hc]
          have hih := ih (updateBest st0 hh.qseqid hh.row hh.bitscore) st h
          rw [hih, lookupBest_updateBest st0 hh.qseqid hh.row hh.bitscore qid, if_pos hq]
          cases hl0 : lookupBest qid st0 with
          | none => rfl
          | some v =>
            obtain ⟨r0, b0⟩ := v
            rfl
        · have hc : candidatesFor minP minQ maxE qid (l :: ls) =
              candidatesFor minP minQ maxE qid ls := by
            simp [candidatesFor, List.filterMap_cons, hlc, hq]
          rw [hc]
          have hih := ih (updateBest st0 hh.qseqid hh.row hh.bitscore) st h
          rw [hih, lookupBest_updateBest st0 hh.qseqid hh.row hh.bitscore qid, if_neg hq]

theorem updateBest_keys (q row : PyStr) (bs : PyNum) :
    ∀ st : List BestEntry, (updateBest st q row bs).map Prod.fst =
      if q ∈ st.map Prod.fst then st.map Prod.fst else st.map Prod.fst ++ [q] := by
  intro st
  induction st with
  | nil => simp [updateBest]
  | cons e rest ih =>
    obtain ⟨q0, r0, b0⟩ := e
    by_cases h0 : q0 = q
    · subst h0
      simp only [updateBest, if_pos rfl]
      cases hlt : pyLt b0 bs
      · rw [if_neg Bool.false_ne_true]
        simp
      · rw [if_pos rfl]
        simp
    · have hne : ¬ q = q0 := fun h => h0 h.symm
      simp only [updateBest, if_neg h0, List.map_cons, List.mem_cons]
      rw [ih]
      by_cases hm : q ∈ rest.map Prod.fst
      · simp [hm, hne]
      · simp [hm, hne]

theorem firstOccFrom_congr : ∀ (l s1 s2 : List PyStr), (∀ x : PyStr, x ∈ s1 ↔ x ∈ s2) →
    firstOccFrom s1 l = firstOccFrom s2 l
  | [], _, _, _ => rfl
  | q :: qs, s1, s2, h => by
    by_cases hq : q ∈ s1
    · rw [firstOccFrom, firstOccFrom, if_pos hq, if_pos ((h q).mp hq)]
      exact firstOccFrom_congr qs s1 s2 h
    · rw [firstOccFrom, firstOccFrom, if_neg hq, if_neg (fun hc => hq ((h q).mpr hc))]
      refine congrArg (q :: ·) (firstOccFrom_congr qs (q :: s1) (q :: s2) ?_)
      intro x
      simp [h x]

theorem runLines_keys (minP minQ maxE : PyNum) :
    ∀ (lines : List PyStr) (st0 st : List BestEntry),
      runLines minP minQ maxE lines st0 = some st →
      st.map Prod.fst =
        st0.map Prod.fst ++
          firstOccFrom (st0.map Prod.fst) (passingQids minP minQ maxE lines) := by
  intro lines
  induction lines with
  | nil =>
    intro st0 st h
    simp only [runLines, Option.some.injEq] at h
    subst h
    simp [passingQids, firstOccFrom]
  | cons l ls ih =>
    intro st0 st h
    simp only [runLines] at h
    cases hlc : lineClass minP minQ maxE l
    case skip =>
      rw [hlc] at h
      have hp : passingQids minP minQ maxE (l :: ls) = passingQids minP minQ maxE ls := by
        simp [passingQids, List.filterMap_cons, hlc]
      rw [hp]
      exact ih st0 st h
    case err =>
      rw [hlc] at h
      exact absurd h (by simp)
    case cand hh pass =>
      rw [hlc] at h
      cases pass
      · have hp : passingQids minP minQ maxE (l :: ls) = passingQids minP minQ maxE ls := by
          simp [passingQids, List.filterMap_cons, hlc]
        rw [hp]
        exact ih st0 st h
      · have hp : passingQids minP minQ maxE (l :: ls) =
            hh.qseqid :: passingQids minP minQ maxE ls := by
          simp [passingQids, List.filterMap_cons, hlc]
        rw [hp]
        have hih := ih (updateBest st0 hh.qseqid hh.row hh.bitscore) st h
        rw [updateBest_keys hh.qseqid hh.row hh.bitscore st0] at hih
        by_cases hmem : hh.qseqid ∈ st0.map Prod.fst
        · rw [if_pos hmem] at hih
          rw [hih, firstOccFrom, if_pos hmem]
        · rw [if_neg hmem] at hih
          rw [hih, firstOccFrom, if_neg hmem, List.append_assoc, List.singleton_append]
          refine congrArg (st0.map Prod.fst ++ ·) (congrArg (hh.qseqid :: ·) ?_)
          refine firstOccFrom_congr _ _ _ ?_
          intro x
          simp [or_comm]

theorem skipLine_class (minP minQ maxE : PyNum) (l : PyStr) (h : skipLine l = true) :
    lineClass minP minQ maxE l = .skip := by
  unfold skipLine at h
  simp only [Bool.or_eq_true, decide_eq_true_iff] at h
  by_cases h1 : l.head? = some '#'
  · simp [lineClass, h1]
  · by_cases h2 : pyStrip l = []
    · simp [lineClass, h2]
    · have h3 : (splitOnTab (pyStrip l)).length < 14 := by
        rcases h with (h | h) | h
        · exact absurd h h1
        · exact absurd h h2
        · exact h
      simp [lineClass, h1, h2, h3]

theorem runLines_skip_insert (minP minQ maxE : PyNum) (l : PyStr) (hl : skipLine l = true) :
    ∀ (xs ys : List PyStr) (st0 : List BestEntry),
      runLines minP minQ maxE (xs ++ l :: ys) st0 = runLines minP minQ maxE (xs ++ ys) st0 := by
  have hcl := skipLine_class minP minQ maxE l hl
  intro xs
  induction xs with
  | nil =>
    intro ys st0
    simp only [List.nil_append]
    conv_lhs => rw [runLines, hcl]
  | cons x xs ih =>
    intro ys st0
    simp only [List.cons_append]
    cases hx : lineClass minP minQ maxE x
    case skip =>
      conv_lhs => rw [runLines, hx]
      conv_rhs => rw [runLines, hx]
      exact ih ys st0
    case err =>
      conv_lhs => rw [runLines, hx]
      conv_rhs => rw [runLines, hx]
    case cand hh pass =>
      conv_lhs => rw [runLines, hx]
      conv_rhs => rw [runLines, hx]
      exact ih ys _

theorem mem_setInsert (x y : PyStr) (s : List PyStr) :
    y ∈ setInsert x s ↔ y = x ∨ y ∈ s := by
  unfold setInsert
  by_cases h : x ∈ s
  · rw [if_pos h]
    constructor
    · exact Or.inr
    · rintro (rfl | h2)
      · exact h
      · exact h2
  · rw [if_neg h, List.mem_append, List.mem_singleton]
    exact or_comm

theorem parseStep_assigned_eq (st : SampleAssignments) (rid : PyStr) :
    (parseStep st (rid, some "Assigned".data)).assignedIds = setInsert rid st.assignedIds := by
  simp [parseStep]

theorem parseStep_assigned_ne (st : SampleAssignments) (rid : PyStr) (tag : Option PyStr)
    (ht : tag ≠ some "Assigned".data) :
    (parseStep st (rid, tag)).assignedIds = st.assignedIds := by
  simp [parseStep, ht]

theorem parseStep_unassigned_eq (st : SampleAssignments) (rid : PyStr) :
    (parseStep st (rid, some "Assigned".data)).unassignedIds = st.unassignedIds := by
  simp [parseStep]

theorem parseStep_unassigned_ne (st : SampleAssignments) (rid : PyStr) (tag : Option PyStr)
    (ht : tag ≠ some "Assigned".data) :
    (parseStep st (rid, tag)).unassignedIds = setInsert rid st.unassignedIds := by
  simp [parseStep, ht]

theorem parseAssignments_aux_assigned :
    ∀ (stream : List (PyStr × Option PyStr)) (st : SampleAssignments) (r : PyStr),
      (r ∈ (stream.foldl parseStep st).assignedIds ↔
        r ∈ st.assignedIds ∨ (r, some "Assigned".data) ∈ stream) := by
  intro stream
  induction stream with
  | nil => intro st r; simp
  | cons rec rest ih =>
    intro st r
    obtain ⟨rid, tag⟩ := rec
    rw [List.foldl_cons, ih (parseStep st (rid, tag)) r]
    by_cases ht : tag = some "Assigned".data
    · subst ht
      rw [parseStep_assigned_eq, mem_setInsert]
      constructor
      · rintro ((rfl | h) | h)
        · exact Or.inr (List.mem_cons_self _ _)
        · exact Or.inl h
        · exact Or.inr (List.mem_cons_of_mem _ h)
      · rintro (h | h)
        · exact Or.inl (Or.inr h)
        · rcases List.mem_cons.mp h with heq | hm
          · exact Or.inl (Or.inl (congrArg Prod.fst heq))
          · exact Or.inr hm
    · rw [parseStep_assigned_ne st rid tag ht]
      constructor
      · rintro (h | h)
        · exact Or.inl h
        · exact Or.inr (List.mem_cons_of_mem _ h)
      · rintro (h | h)
        · exact Or.inl h
        · rcases List.mem_cons.mp h with heq | hm
          · exact absurd (congrArg Prod.snd heq).symm ht
          · exact Or.inr hm

theorem parseAssignments_aux_unassigned :
    ∀ (stream : List (PyStr × Option PyStr)) (st : SampleAssignments) (r : PyStr),
      (r ∈ (stream.foldl parseStep st).unassignedIds ↔
        r ∈ st.unassignedIds ∨ ∃ t, (r, t) ∈ stream ∧ t ≠ some "Assigned".data) := by
  intro stream
  induction stream with
  | nil => intro st r; simp
  | cons rec rest ih =>
    intro st r
    obtain ⟨rid, tag⟩ := rec
    rw [List.foldl_cons, ih (parseStep st (rid, tag)) r]
    by_cases ht : tag = some "Assigned".data
    · subst ht
      rw [parseStep_unassigned_eq]
      constructor
      · rintro (h | ⟨t, hmem, hne⟩)
        · exact Or.inl h
        · exact Or.inr ⟨t, List.mem_cons_of_mem _ hmem, hne⟩
      · rintro (h | ⟨t, hmem, hne⟩)
        · exact Or.inl h
        · rcases List.mem_cons.mp hmem with heq | hm
          · exact absurd (congrArg Prod.snd heq) hne
          · exact Or.inr ⟨t, hm, hne⟩
    · rw [parseStep_unassigned_ne st rid tag ht, mem_setInsert]
      constructor
      · rintro ((rfl | h) | ⟨t, hmem, hne⟩)
        · exact Or.inr ⟨tag, List.mem_cons_self _ _, ht⟩
        · exact Or.inl h
        · exact Or.inr ⟨t, List.mem_cons_of_mem _ hmem, hne⟩
      · rintro (h | ⟨t, hmem, hne⟩)
        · exact Or.inl (Or.inr h)
        · rcases List.mem_cons.mp hmem with heq | hm
          · exact Or.inl (Or.inl (congrArg Prod.fst heq))
          · exact Or.inr ⟨t, hm, hne⟩

theorem dropWhile_underscore :
    ∀ rid : PyStr, '_' ∈ rid →
      ∃ rest, rid.dropWhile (fun c => c ≠ '_') = '_' :: rest ∧
        rid.takeWhile (fun c => c ≠ '_') ++ '_' :: rest = rid := by
  intro rid
  induction rid with
  | nil => intro h; exact absurd h (List.not_mem_nil _)
  | cons c cs ih =>
    intro h
    by_cases hc : c = '_'
    · subst hc
      refine ⟨cs, ?_, ?_⟩
      · rw [List.dropWhile_cons_of_neg (by simp)]
      · rw [List.takeWhile_cons_of_neg (by simp), List.nil_append]
    · have hmem : '_' ∈ cs := by
        rcases List.mem_cons.mp h with heq | hm
        · exact absurd heq.symm hc
        · exact hm
      obtain ⟨rest, hdrop, htake⟩ := ih hmem
      refine ⟨rest, ?_, ?_⟩
      · rw [List.dropWhile_cons_of_pos (by simp [hc])]
        exact hdrop
      · rw [List.takeWhile_cons_of_pos (by simp [hc]), List.cons_append, htake]

theorem fastqLoop_roundtrip (keepIds : List PyStr) :
    ∀ recs : List (PyStr × PyStr × PyStr × PyStr),
      (∀ rec ∈ recs, rec.1 ≠ [] ∧ rec.2.2.2 ≠ [] ∧
        ∃ rid, extractReadIdFromHeader rec.1 = some rid ∧ rid ∈ keepIds) →
      fastqLoop keepIds (flatRecords recs) = some (flatRecords recs, recs.length) := by
  intro recs
  induction recs with
  | nil => intro _; rfl
  | cons rec rest ih =>
    intro hall
    obtain ⟨hh, hq, rid, hrid, hkeep⟩ := hall rec (List.mem_cons_self _ _)
    have hrest := fun r hr => hall r (List.mem_cons_of_mem _ hr)
    have hflat : flatRecords (rec :: rest) =
        rec.1 :: rec.2.1 :: rec.2.2.1 :: rec.2.2.2 :: flatRecords rest := by
      simp [flatRecords]
    rw [hflat, fastqLoop, if_neg hh, if_neg hq, hrid, ih hrest]
    show (if rid ∈ keepIds then
        some ([rec.1, rec.2.1, rec.2.2.1, rec.2.2.2] ++ flatRecords rest, rest.length + 1)
      else some (flatRecords rest, rest.length)) =
      some (rec.1 :: rec.2.1 :: rec.2.2.1 :: rec.2.2.2 :: flatRecords rest, (rec :: rest).length)
    rw [if_pos hkeep]
    simp

/-! ## Per-claim results -/

/-- C1 (counterexample): on the stream `[lineA, lineB]` both hits pass the
filters for query `q1` with equal bitscore 90, `lineB` arriving second with
the strictly smaller e-value 1e-10, yet the resolver retains `lineA`
(e-value 1e-3).  This refutes the claimed tie-break by lowest e_value. -/
theorem c1_counterexample :
    candidatesFor thrP thrQ thrE "q1".data [lineA, lineB] =
      [(lineA, ⟨90, 0⟩), (lineB, ⟨90, 0⟩)] ∧
    runLines thrP thrQ thrE [lineA, lineB] [] = some [("q1".data, lineA, ⟨90, 0⟩)] ∧
    rowEvalue lineA = some ⟨1, 3⟩ ∧ rowEvalue lineB = some ⟨1, 10⟩ ∧
    pyLt ⟨1, 10⟩ ⟨1, 3⟩ = true ∧ lineA ≠ lineB := by decide

/-- C1 (amended): for every hit stream and thresholds, the resolver retains,
per query id, the first-seen candidate whose bitscore is maximal among that
query's filter-passing candidates; equal bitscores keep the earlier candidate
regardless of e_value. -/
theorem c1_best_hit_reduction (minP minQ maxE : PyNum) (lines : List PyStr)
    (st : List BestEntry) (h : runLines minP minQ maxE lines [] = some st) (qid : PyStr) :
    lookupBest qid st = specRetained (candidatesFor minP minQ maxE qid lines) := by
  have hk := runLines_lookup minP minQ maxE qid lines [] st h
  rw [hk]
  exact foldBest_none_eq _

/-- C1 (witness): the amended reduction rule evaluated on the concrete
two-hit stream. -/
theorem c1_best_hit_reduction_witness :
    lookupBest "q1".data stC1 = specRetained (candidatesFor thrP thrQ thrE "q1".data [lineA, lineB]) :=
  c1_best_hit_reduction thrP thrQ thrE [lineA, lineB] stC1 (by decide) "q1".data

/-- C2 (code bug): `build_unassigned_fasta` has no record cap: two
five-record files produce all ten entries, although the spec (and the
function's own caller, which passes `sample_size=`) require at most the cap,
here 7. -/
theorem c2_no_cap_eval : (buildUnassignedFasta [fileA5, fileB5]).length = 10 := by decide

/-- C3 (code bug): the emitted identifier is the original header with `@`
replaced by `>`; no `{origin-file-stem}_` prefix is attached, so for a record
`@r1` of file `A.fastq` the id is `r1`, not `A_r1`. -/
theorem c3_no_origin_tag_eval :
    buildUnassignedFasta [["@r1".data, "ACGT".data, "+".data, "IIII".data]] =
      [(">r1".data, "ACGT".data)] ∧ (">r1".data : PyStr) ≠ ">A_r1".data := by decide

/-- C4 (counterexample): a read tagged `Assigned` and later
`Unassigned_Unmapped` ends up in BOTH sets: the sets are add-only, so neither
disjointness nor last-write-wins holds for mixed-tag streams. -/
theorem c4_counterexample :
    "r".data ∈ (parseAssignments mixedTagStream).assignedIds ∧
    "r".data ∈ (parseAssignments mixedTagStream).unassignedIds := by decide

/-- C4 (amended): a read is in the assigned set iff some occurrence carries
the tag `Assigned`, and in the unassigned set iff some occurrence carries any
other (or no) tag; membership is a union over all occurrences, not
last-write-wins, so the two sets are disjoint exactly for reads whose
occurrences all imply the same set (in particular reads occurring once). -/
theorem c4_set_membership (stream : List (PyStr × Option PyStr)) (r : PyStr) :
    (r ∈ (parseAssignments stream).assignedIds ↔ (r, some "Assigned".data) ∈ stream) ∧
    (r ∈ (parseAssignments stream).unassignedIds ↔
      ∃ t, (r, t) ∈ stream ∧ t ≠ some "Assigned".data) := by
  constructor
  · have h := parseAssignments_aux_assigned stream ⟨[], [], 0, 0, 0, 0, 0⟩ r
    simpa [parseAssignments] using h
  · have h := parseAssignments_aux_unassigned stream ⟨[], [], 0, 0, 0, 0, 0⟩ r
    simpa [parseAssignments] using h

/-- C5 (counterexample): a 14-field line whose percent-identity field is not
numeric aborts the whole run (uncaught `ValueError`), instead of being
skipped. -/
theorem c5_counterexample : runLines thrP thrQ thrE [lineBad] [] = none := by decide

/-- C5 (amended): comment lines, blank lines and lines with fewer than 14 tab
fields are skipped without effect: removing such a line anywhere in the
stream leaves the resolver state unchanged, and such a line never aborts the
run.  (Lines with 14 fields but unparseable numerics do abort.) -/
theorem c5_malformed_skip (minP minQ maxE : PyNum) (l : PyStr) (hl : skipLine l = true)
    (xs ys : List PyStr) (st0 : List BestEntry) :
    runLines minP minQ maxE (xs ++ l :: ys) st0 = runLines minP minQ maxE (xs ++ ys) st0 :=
  runLines_skip_insert minP minQ maxE l hl xs ys st0

/-- C5 (witness): inserting a comment line before `lineA` leaves the run
unchanged. -/
theorem c5_malformed_skip_witness :
    runLines thrP thrQ thrE ([] ++ commentLine :: [lineA]) [] =
      runLines thrP thrQ thrE ([] ++ [lineA]) [] :=
  c5_malformed_skip thrP thrQ thrE commentLine (by decide) [] [lineA] []

/-- C6 (counterexample): a query id without separator yields the sentinel
`"Unknown Sample"`, not the claimed `"Unknown"`. -/
theorem c6_counterexample :
    getSampleFromReadID "abc".data = "Unknown Sample".data ∧
    "Unknown Sample".data ≠ "Unknown".data := by decide

/-- C6 (amended): when the query id contains the separator `_`, the sample id
is exactly the prefix before the first `_`; otherwise the sentinel is
`"Unknown Sample"`. -/
theorem c6_sample_extraction (rid : PyStr) :
    ('_' ∈ rid → (∃ rest, rid = getSampleFromReadID rid ++ '_' :: rest) ∧
      '_' ∉ getSampleFromReadID rid) ∧
    ('_' ∉ rid → getSampleFromReadID rid = "Unknown Sample".data) := by
  constructor
  · intro h
    have hg : getSampleFromReadID rid = rid.takeWhile (fun c => c ≠ '_') := by
      unfold getSampleFromReadID
      rw [if_pos h]
    obtain ⟨rest, hdrop, htake⟩ := dropWhile_underscore rid h
    constructor
    · refine ⟨rest, ?_⟩
      rw [hg]
      exact htake.symm
    · rw [hg]
      intro hc
      have hp := List.mem_takeWhile_imp hc
      simp at hp
  · intro h
    unfold getSampleFromReadID
    rw [if_neg h]

/-- C6 (witness): the two branches of the sample-id extraction at concrete
query ids. -/
theorem c6_sample_extraction_witness :
    ((∃ rest, "S1_r7".data = getSampleFromReadID "S1_r7".data ++ '_' :: rest) ∧
      '_' ∉ getSampleFromReadID "S1_r7".data) ∧
    getSampleFromReadID "abc".data = "Unknown Sample".data :=
  ⟨(c6_sample_extraction "S1_r7".data).1 (by decide),
   (c6_sample_extraction "abc".data).2 (by decide)⟩

/-- C7: with an absent keep-set, or a missing input file, the partitioner
writes a valid empty output (zero records) and returns normally. -/
theorem c7_degrade (input : Option (List PyStr)) (keepIds : Option (List PyStr))
    (h : keepIds = none ∨ input = none) :
    writeFilteredFastq input keepIds = some ([], 0) := by
  rcases h with rfl | rfl
  · rfl
  · cases keepIds with
    | none => rfl
    | some ks => rfl

/-- C7 (witness): both degradation branches at concrete inputs. -/
theorem c7_degrade_witness :
    writeFilteredFastq (some fileA5) none = some ([], 0) ∧
    writeFilteredFastq none (some ["r1".data]) = some ([], 0) :=
  ⟨c7_degrade (some fileA5) none (Or.inl rfl),
   c7_degrade none (some ["r1".data]) (Or.inr rfl)⟩

/-- C8: partitioning a well-formed container (complete 4-line records with
extractable read ids, all in the keep-set) reproduces the input line for
line, in order, and counts every record. -/
theorem c8_partition_roundtrip (recs : List (PyStr × PyStr × PyStr × PyStr))
    (keepIds : List PyStr)
    (h : ∀ rec ∈ recs, rec.1 ≠ [] ∧ rec.2.2.2 ≠ [] ∧
      ∃ rid, extractReadIdFromHeader rec.1 = some rid ∧ rid ∈ keepIds) :
    writeFilteredFastq (some (flatRecords recs)) (some keepIds) =
      some (flatRecords recs, recs.length) :=
  fastqLoop_roundtrip keepIds recs h

/-- C8 (witness): the round trip on two concrete records. -/
theorem c8_partition_roundtrip_witness :
    writeFilteredFastq (some (flatRecords recsC8)) (some keepC8) =
      some (flatRecords recsC8, recsC8.length) := by
  refine c8_partition_roundtrip recsC8 keepC8 ?_
  intro rec hrec
  rcases List.mem_cons.mp hrec with rfl | hrec2
  · exact ⟨by decide, by decide, "r1".data, by decide, by decide⟩
  rcases List.mem_cons.mp hrec2 with rfl | hrec3
  · exact ⟨by decide, by decide, "r2".data, by decide, by decide⟩
  exact absurd hrec3 (List.not_mem_nil _)

/-- C9: for every retained-hit state, the summary rows are sorted by sample
id ascending then count descending; they are a permutation of the grouped
counts; and rows with equal (sample id, count) appear exactly in the
insertion order of the `(sample, subject)` groups (stability), independent of
any hashing. -/
theorem c9_summary_order (st : List BestEntry) :
    List.Pairwise
      (fun a b => strLtB a.1.1 b.1.1 = true ∨ (a.1.1 = b.1.1 ∧ b.2 ≤ a.2))
      (sortedSummaryOf st) ∧
    List.Perm (sortedSummaryOf st) (summaryCountsOf st) ∧
    ∀ k : PyStr × Nat,
      (sortedSummaryOf st).filter (fun x => decide (x.1.1 = k.1) && decide (x.2 = k.2)) =
        (summaryCountsOf st).filter (fun x => decide (x.1.1 = k.1) && decide (x.2 = k.2)) := by
  have hasym : ∀ u v : (PyStr × PyStr) × Nat, sumLtB u v = true → sumLtB v u = false :=
    fun u v h => sumLtB_asymm h
  have htrans : ∀ u v w : (PyStr × PyStr) × Nat,
      sumLtB u v = true → sumLtB v w = true → sumLtB u w = true :=
    fun u v w h1 h2 => sumLtB_trans h1 h2
  have hneg : ∀ u w : (PyStr × PyStr) × Nat, sumLtB u w = true →
      ∀ v, sumLtB u v = true ∨ sumLtB v w = true :=
    fun u w h v => sumLtB_negtrans h v
  refine ⟨?_, insSortFold_perm sumLtB _, ?_⟩
  · have hp := insSortFold_pairwise sumLtB hasym htrans (summaryCountsOf st)
    exact hp.imp fun h => sumLtB_eq_false_iff.mp h
  · intro k
    refine filter_insSortFold sumLtB _ hasym htrans ?_ hneg (summaryCountsOf st)
    intro u v hu hv
    rw [Bool.and_eq_true, decide_eq_true_iff, decide_eq_true_iff] at hu hv
    have h1 : u.1.1 = v.1.1 := hu.1.trans hv.1.symm
    have h2 : u.2 = v.2 := hu.2.trans hv.2.symm
    rw [sumLtB, h1, strLtB_irrefl, h2]
    simp

/-- C10: the matched-table rows appear in the order in which each distinct
query id's first filter-passing hit was met in the stream; replacing a
retained hit in place never moves the row. -/
theorem c10_matched_row_order (minP minQ maxE : PyNum) (lines : List PyStr)
    (st : List BestEntry) (h : runLines minP minQ maxE lines [] = some st) :
    st.map Prod.fst = firstOccFrom [] (passingQids minP minQ maxE lines) := by
  have hk := runLines_keys minP minQ maxE lines [] st h
  simpa using hk

/-- C10 (witness): the row order on a stream where `q1` is later improved but
keeps its position before `q2`. -/
theorem c10_matched_row_order_witness :
    stC10.map Prod.fst = firstOccFrom [] (passingQids thrP thrQ thrE [lineA, lineC, lineD]) :=
  c10_matched_row_order thrP thrQ thrE [lineA, lineC, lineD] stC10 (by decide)
